import Mathlib

/-!
Verification of the catsyphon incremental ingestion core.

The backend's incremental ingestion core (partial hasher, change detector,
line-oriented incremental parser, ingestion orchestrator and persistence
mapping) is exercised by the repository's test suite
(`backend/tests/test_parsers/test_incremental.py`,
`backend/tests/test_codex_incremental.py`,
`backend/tests/test_pipeline_orchestrator.py`,
`backend/tests/test_pipeline_ingestion.py`) but the implementation modules
(`catsyphon/parsers/incremental.py`, `catsyphon/parsers/codex.py`,
`catsyphon/pipeline/orchestrator.py`, `catsyphon/pipeline/ingestion.py`,
`catsyphon/models/parsed.py`) are not present in the source tree.  The
definitions below are therefore modelled from the specification's component
contracts (spec sections 3, 4.1, 4.2, 4.3, 4.5), with concrete behaviour
pinned by the repository's tests where those tests fix a data point.

Files are modelled as byte lists (`List Nat`), a missing or unreadable file
as `none`.  JSON decoding of a single line is an opaque parameter
`decode : List Nat -> Option Record`, since the scanning/offset logic under
verification is independent of the JSON dialect.
-/

/-- A content-addressed fingerprint.  SHA-256 is modelled as an ideal
(collision-free, deterministic) digest of the hashed bytes: equal byte
sequences give equal hashes and, in the model, conversely. -/
structure Hash where
  digest : List Nat
deriving DecidableEq

/-- Modelled from the spec: the Partial Hasher's underlying digest function
(`hashlib.sha256` in the missing `catsyphon/parsers/incremental.py`),
idealised as an injective fingerprint of the input bytes. -/
def hashBytes (bs : List Nat) : Hash :=
  ⟨bs⟩

/-- Error raised by the partial hasher on an out-of-range length
(`ValueError` in the tests: "non-negative" / "exceeds file size"). -/
inductive HashError where
  | invalidRange
deriving DecidableEq

/-- Modelled from the spec: `hash_prefix(source, byte_length)` of section 4.1
(`calculate_partial_hash` in the missing `catsyphon/parsers/incremental.py`).
Fails with `InvalidRange` when `byte_length < 0` or `byte_length` exceeds the
source's total byte length; otherwise hashes exactly the first `byte_length`
bytes.  The streaming-in-chunks aspect is not observable at this level. -/
def calculate_partial_hash (bs : List Nat) (byte_length : Int) : Except HashError Hash :=
  if byte_length < 0 then .error .invalidRange
  else if (bs.length : Int) < byte_length then .error .invalidRange
  else .ok (hashBytes (bs.take byte_length.toNat))

/-- The closed enumeration of file change classifications (spec section 3). -/
inductive ChangeType where
  | unchanged
  | append
  | truncate
  | rewrite
  | deleted
deriving DecidableEq

/-- Modelled from the spec: the Change Detector
`detect(path, previous_offset, previous_size, previous_hash)` of section 4.2
(`detect_file_change_type` in the missing `catsyphon/parsers/incremental.py`).
One divergence from the spec's words: for a missing/unreadable file the spec
says `Deleted`, but the repository's test
`test_file_deleted_treated_as_truncate` pins the detector's result at a
missing path to `TRUNCATE`; the model follows the test.  All other branches
follow the spec's precedence order, hashing the first `previous_size` bytes
of the current file for the size-equal and size-grew comparisons. -/
def detect_file_change_type (file : Option (List Nat)) (previous_offset previous_size : Nat)
    (previous_hash : Option Hash) : ChangeType :=
  match file with
  | none => .truncate
  | some bs =>
    if bs.length < previous_size then .truncate
    else if bs.length = previous_size then
      match previous_hash with
      | some h => if hashBytes (bs.take previous_size) = h then .unchanged else .rewrite
      | none => .unchanged
    else
      match previous_hash with
      | some h => if hashBytes (bs.take previous_size) = h then .append else .rewrite
      | none => .append

/-- A conversation message as produced by a format parser (spec section 3,
`ParsedMessage`; the carrying module `catsyphon/models/parsed.py` is missing
from the tree).  Timestamps are modelled as naturals. -/
structure ParsedMessage where
  role : String
  content : String
  timestamp : Nat
deriving DecidableEq

/-- One decoded JSON-lines record of an agent log: either a
session-metadata/control record or a record mapping to a conversation
message (spec section 4.3). -/
inductive Record where
  | sessionMeta
  | message (m : ParsedMessage)
deriving DecidableEq

/-- The conversation message carried by a record, if any. -/
def Record.message? : Record → Option ParsedMessage
  | .sessionMeta => none
  | .message m => some m

/-- The messages carried by a record sequence, in order. -/
def msgsOf (rs : List Record) : List ParsedMessage :=
  rs.filterMap Record.message?

/-- Modelled from the spec: a full parse result (spec section 3,
`ParsedConversation`, restricted to the ordered message sequence that the
verified properties are about). -/
structure ParsedConversation where
  messages : List ParsedMessage
deriving DecidableEq

/-- Parse-stage errors (spec section 7). -/
inductive ParseError where
  | ioFailure
  | parseFailure (line : Nat)
deriving DecidableEq

/-- The delta returned by an incremental parse (spec section 3,
`IncrementalParseResult`). -/
structure IncrementalParseResult where
  new_messages : List ParsedMessage
  last_processed_offset : Nat
  last_processed_line : Nat
  file_size_bytes : Nat
  partial_hash : Hash
  last_message_timestamp : Option Nat
deriving DecidableEq

/-- Split a byte sequence into its newline-terminated lines (newline byte 10,
excluded from each returned line) and the trailing unterminated fragment. -/
def splitTerminated : List Nat → List (List Nat) × List Nat
  | [] => ([], [])
  | b :: bs =>
    if b = 10 then
      ([] :: (splitTerminated bs).1, (splitTerminated bs).2)
    else
      match splitTerminated bs with
      | ([], f) => ([], b :: f)
      | (l :: ls, f) => ((b :: l) :: ls, f)

/-- Concatenation of newline-terminated lines back into a byte sequence. -/
def linesJoin : List (List Nat) → List Nat
  | [] => []
  | l :: ls => l ++ 10 :: linesJoin ls

/-- Total byte length of a sequence of newline-terminated lines. -/
def byteLen : List (List Nat) → Nat
  | [] => 0
  | l :: ls => l.length + 1 + byteLen ls

/-- Modelled from the spec: the forward scan of an incremental parse
(spec section 4.3).  Consumes terminated lines in order, tracking the byte
offset and line number of the last fully-consumed, fully-decoded record.  A
decode failure on the final line of the read window (nothing after it, not
even a fragment) is treated as not-yet-available: scanning stops before that
line with no error.  A decode failure on any earlier line is a genuine
malformed-record failure, reported with its line number. -/
def scanLoop (decode : List Nat → Option Record) :
    List (List Nat) → Bool → Nat → Nat → Except ParseError (List Record × Nat × Nat)
  | [], _, offset, line => .ok ([], offset, line)
  | l :: rest, hasFrag, offset, line =>
    match decode l with
    | some r =>
      match scanLoop decode rest hasFrag (offset + l.length + 1) (line + 1) with
      | .ok (rs, o, ln) => .ok (r :: rs, o, ln)
      | .error e => .error e
    | none =>
      if rest.isEmpty && !hasFrag then .ok ([], offset, line)
      else .error (.parseFailure (line + 1))

/-- Modelled from the spec: `parse_incremental(path, last_offset, last_line)`
of section 4.3 (the missing `CodexParser.parse_incremental` in
`catsyphon/parsers/codex.py`).  Seeks to `last_offset`, reads forward line by
line; a line is complete only if newline-terminated and decoding succeeds;
an undecodable or unterminated trailing record is left unconsumed with no
error; `file_size_bytes` and `partial_hash` are computed fresh against the
current file. -/
def parse_incremental (decode : List Nat → Option Record) (file : Option (List Nat))
    (last_offset last_line : Nat) : Except ParseError IncrementalParseResult :=
  match file with
  | none => .error .ioFailure
  | some bs =>
    let split := splitTerminated (bs.drop last_offset)
    match scanLoop decode split.1 (!split.2.isEmpty) last_offset last_line with
    | .error e => .error e
    | .ok (recs, off, ln) =>
      let msgs := msgsOf recs
      .ok { new_messages := msgs
            last_processed_offset := off
            last_processed_line := ln
            file_size_bytes := bs.length
            partial_hash := hashBytes (bs.take off)
            last_message_timestamp := (msgs.map (·.timestamp)).getLast? }

/-- Decode every line of a full parse, failing on the first undecodable
record with its line number. -/
def decodeAll (decode : List Nat → Option Record) :
    List (List Nat) → Nat → Except ParseError (List Record)
  | [], _ => .ok []
  | l :: rest, line =>
    match decode l with
    | some r =>
      match decodeAll decode rest (line + 1) with
      | .ok rs => .ok (r :: rs)
      | .error e => .error e
    | none => .error (.parseFailure (line + 1))

/-- Modelled from the spec: `parse(path)` of section 4.3 (the missing
`CodexParser.parse`): read the entire file, decode every record, assemble
the messages into a single conversation in file order.  A trailing
unterminated fragment is reported as a parse failure, since a full parse
must decode every record. -/
def parse (decode : List Nat → Option Record) (file : Option (List Nat)) :
    Except ParseError ParsedConversation :=
  match file with
  | none => .error .ioFailure
  | some bs =>
    let split := splitTerminated bs
    if split.2.isEmpty then
      match decodeAll decode split.1 0 with
      | .ok recs => .ok ⟨msgsOf recs⟩
      | .error e => .error e
    else .error (.parseFailure (split.1.length + 1))

/-- A stored message row: `MessageRepository.create_message` requires an
explicit `sequence` (see `catsyphon/db/repositories/message.py`). -/
structure DbMessage where
  sequence : Nat
  role : String
  content : String
  timestamp : Nat
deriving DecidableEq

/-- A stored epoch row: `EpochRepository.create_epoch` requires an explicit
`sequence` (see `catsyphon/db/repositories/epoch.py`). -/
structure DbEpoch where
  sequence : Nat
deriving DecidableEq

/-- A stored conversation with its denormalized message count
(migration `003_add_conversation_counts.py`). -/
structure DbConversation where
  id : Nat
  messages : List DbMessage
  epochs : List DbEpoch
  message_count : Nat
deriving DecidableEq

/-- Turn parsed messages into message rows with consecutive sequence numbers
starting at `start`, in input order. -/
def number_messages : Nat → List ParsedMessage → List DbMessage
  | _, [] => []
  | start, m :: rest => ⟨start, m.role, m.content, m.timestamp⟩ :: number_messages (start + 1) rest

/-- Modelled from the spec: the persistence collaborator's
`create_conversation` (the missing `ingest_conversation` in
`catsyphon/pipeline/ingestion.py`): stores the parsed messages as message
rows with consecutive sequence numbers `0..n-1` in input order, creates a
single epoch with sequence `0` covering the conversation, and records the
denormalized message count, as pinned by the repository's tests
`test_ingest_message_sequence` and `test_ingest_creates_epoch`. -/
def ingest_conversation (cid : Nat) (parsed : ParsedConversation) : DbConversation :=
  { id := cid
    messages := number_messages 0 parsed.messages
    epochs := [⟨0⟩]
    message_count := parsed.messages.length }

/-- Modelled from the spec: the persistence collaborator's `append_messages`
(spec section 6): append message rows, continuing the sequence numbering,
and increment the denormalized count. -/
def append_messages (conv : DbConversation) (new_msgs : List ParsedMessage) : DbConversation :=
  { conv with
    messages := conv.messages ++ number_messages conv.messages.length new_msgs
    message_count := conv.message_count + new_msgs.length }

/-- The terminal status of one ingestion attempt (spec section 3,
`IngestionOutcome`; the string statuses "success"/"duplicate"/"skipped"/
"failed" appear in `catsyphon/api/routes/ingestion.py`). -/
inductive IngestStatus where
  | success
  | duplicate
  | skipped
  | failed
deriving DecidableEq

/-- The outcome returned to the caller of `ingest_log_file`. -/
structure IngestionOutcome where
  status : IngestStatus
  incremental : Bool
  conversation : Option DbConversation
deriving DecidableEq

/-- The persisted resume state for one tracked path (spec section 3,
`RawLogState`; columns added by migration
`004_add_incremental_parsing_state.py`). -/
structure RawLogState where
  last_processed_offset : Nat
  last_processed_line : Nat
  file_size_bytes : Nat
  partial_hash : Option Hash
deriving DecidableEq

/-- The storage collaborator's view of a single tracked path: its resume
state, the conversation it maps to, the content fingerprint of the last
fully-ingested file (for the duplicate check of spec section 4.5 step 4),
and a fresh-id counter for new conversations. -/
structure PathStore where
  state : Option RawLogState
  conv : Option DbConversation
  content_hash : Option Hash
  next_id : Nat
deriving DecidableEq

/-- The store before any ingestion of the path. -/
def emptyStore : PathStore :=
  { state := none, conv := none, content_hash := none, next_id := 0 }

/-- The resume state recorded after a successful full parse: the whole file
is consumed, so the offset is the file size and the partial hash covers the
entire content. -/
def full_state (bs : List Nat) : RawLogState :=
  { last_processed_offset := bs.length
    last_processed_line := (splitTerminated bs).1.length
    file_size_bytes := bs.length
    partial_hash := some (hashBytes bs) }

/-- Modelled from the spec: the orchestrator's full-parse path (spec section
4.5 steps 2 and 3): parse the whole file; on success replace the existing
conversation's content (keeping its identity) or create a fresh one, and
record fresh resume state; any parse failure is captured as `Failed`. -/
def full_reparse (decode : List Nat → Option Record) (bs : List Nat) (st : PathStore) :
    IngestionOutcome × PathStore :=
  match parse decode (some bs) with
  | .error _ => ({ status := .failed, incremental := false, conversation := none }, st)
  | .ok parsed =>
    match st.conv with
    | some c =>
      let c' := ingest_conversation c.id parsed
      ({ status := .success, incremental := false, conversation := some c' },
       { state := some (full_state bs), conv := some c',
         content_hash := some (hashBytes bs), next_id := st.next_id })
    | none =>
      let c' := ingest_conversation st.next_id parsed
      ({ status := .success, incremental := false, conversation := some c' },
       { state := some (full_state bs), conv := some c',
         content_hash := some (hashBytes bs), next_id := st.next_id + 1 })

/-- Modelled from the spec: the Ingestion Orchestrator's single entry point
`ingest(file_path, options)` of section 4.5 (the missing `ingest_log_file`
in `catsyphon/pipeline/orchestrator.py`).  No prior state means a full
parse, preceded by the duplicate check on the content fingerprint (step 4);
with prior state the Change Detector classifies the file: `Unchanged` is a
no-op `Skipped`; `Append` with incremental enabled parses only the tail
beyond the stored offset and appends the delta to the existing conversation;
every other classification (and `Append` with incremental disabled) falls
back to a full re-parse that replaces the conversation's content.  A missing
file on a parse path is a captured failure, never an unchecked error. -/
def ingest_log_file (decode : List Nat → Option Record) (file : Option (List Nat))
    (enable_incremental : Bool) (st : PathStore) : IngestionOutcome × PathStore :=
  match st.state with
  | none =>
    match file with
    | none => ({ status := .failed, incremental := false, conversation := none }, st)
    | some bs =>
      match st.conv, st.content_hash with
      | some c, some fp =>
        if fp = hashBytes bs then
          ({ status := .duplicate, incremental := false, conversation := some c }, st)
        else full_reparse decode bs st
      | _, _ => full_reparse decode bs st
  | some s =>
    match detect_file_change_type file s.last_processed_offset s.file_size_bytes s.partial_hash with
    | .unchanged => ({ status := .skipped, incremental := false, conversation := st.conv }, st)
    | .append =>
      if enable_incremental then
        match file, st.conv with
        | some bs, some c =>
          match parse_incremental decode (some bs) s.last_processed_offset s.last_processed_line with
          | .error _ => ({ status := .failed, incremental := false, conversation := none }, st)
          | .ok r =>
            let c' := append_messages c r.new_messages
            ({ status := .success, incremental := true, conversation := some c' },
             { state := some ⟨r.last_processed_offset, r.last_processed_line,
                              r.file_size_bytes, some r.partial_hash⟩,
               conv := some c', content_hash := some (hashBytes bs), next_id := st.next_id })
        | _, _ => ({ status := .failed, incremental := false, conversation := none }, st)
      else
        match file with
        | some bs => full_reparse decode bs st
        | none => ({ status := .failed, incremental := false, conversation := none }, st)
    | _ =>
      match file with
      | some bs => full_reparse decode bs st
      | none => ({ status := .failed, incremental := false, conversation := none }, st)

/-- A concrete single-line decoder used to evaluate the verified properties
on concrete inputs.  It mirrors the shape of the codex fixture logs: one
session-metadata record and three message records. -/
def decode0 (l : List Nat) : Option Record :=
  if l = [0] then some .sessionMeta
  else if l = [1] then some (.message ⟨"user", "hi", 1⟩)
  else if l = [2] then some (.message ⟨"assistant", "hello", 2⟩)
  else if l = [3] then some (.message ⟨"assistant", "more", 3⟩)
  else if l = [123, 7] then some (.message ⟨"assistant", "deferred", 5⟩)
  else none

theorem splitTerminated_no_newline (f : List Nat) (hf : 10 ∉ f) :
    splitTerminated f = ([], f) := by
  induction f with
  | nil => rfl
  | cons b bs ih =>
    have hb : b ≠ 10 := fun h => hf (h ▸ List.mem_cons_self b bs)
    have hbs : 10 ∉ bs := fun h => hf (List.mem_cons_of_mem _ h)
    simp [splitTerminated, hb, ih hbs]

theorem splitTerminated_line (l rest : List Nat) (hl : 10 ∉ l) :
    splitTerminated (l ++ 10 :: rest) =
      (l :: (splitTerminated rest).1, (splitTerminated rest).2) := by
  induction l with
  | nil => simp [splitTerminated]
  | cons b l' ih =>
    have hb : b ≠ 10 := fun h => hl (h ▸ List.mem_cons_self b l')
    have hl' : 10 ∉ l' := fun h => hl (List.mem_cons_of_mem _ h)
    simp [splitTerminated, hb, ih hl']

theorem splitTerminated_join (ls : List (List Nat)) (frag : List Nat)
    (hls : ∀ l ∈ ls, 10 ∉ l) (hf : 10 ∉ frag) :
    splitTerminated (linesJoin ls ++ frag) = (ls, frag) := by
  induction ls with
  | nil => simpa [linesJoin] using splitTerminated_no_newline frag hf
  | cons l ls ih =>
    have h1 : 10 ∉ l := hls l (List.mem_cons_self _ _)
    have h2 : ∀ x ∈ ls, 10 ∉ x := fun x hx => hls x (List.mem_cons_of_mem _ hx)
    have : linesJoin (l :: ls) ++ frag = l ++ 10 :: (linesJoin ls ++ frag) := by
      simp [linesJoin]
    rw [this, splitTerminated_line _ _ h1, ih h2]

theorem linesJoin_length (ls : List (List Nat)) : (linesJoin ls).length = byteLen ls := by
  induction ls with
  | nil => rfl
  | cons l ls ih => simp [linesJoin, byteLen, ih]; omega

theorem drop_append_len (l₁ l₂ : List Nat) (m : Nat) :
    (l₁ ++ l₂).drop (l₁.length + m) = l₂.drop m := by
  induction l₁ with
  | nil => simp
  | cons b l₁ ih => simpa [Nat.succ_add] using ih

theorem take_append_len (l₁ l₂ : List Nat) (m : Nat) :
    (l₁ ++ l₂).take (l₁.length + m) = l₁ ++ l₂.take m := by
  induction l₁ with
  | nil => simp
  | cons b l₁ ih => simpa [Nat.succ_add] using ih

theorem linesJoin_drop (k : Nat) (ls : List (List Nat)) (hk : k ≤ ls.length) :
    (linesJoin ls).drop (byteLen (ls.take k)) = linesJoin (ls.drop k) := by
  induction k generalizing ls with
  | zero => simp [byteLen]
  | succ k ih =>
    cases ls with
    | nil => exact absurd hk (by simp)
    | cons l ls =>
      have hk' : k ≤ ls.length := Nat.le_of_succ_le_succ (by simpa using hk)
      have harith : l.length + 1 + byteLen (ls.take k) = l.length + (1 + byteLen (ls.take k)) := by
        omega
      simp only [List.take_succ_cons, byteLen, linesJoin, List.drop_succ_cons, harith,
        drop_append_len, List.drop]
      rw [Nat.add_comm 1 (byteLen (ls.take k)), List.drop_succ_cons]
      exact ih ls hk'

theorem linesJoin_take (k : Nat) (ls : List (List Nat)) (hk : k ≤ ls.length) :
    (linesJoin ls).take (byteLen (ls.take k)) = linesJoin (ls.take k) := by
  induction k generalizing ls with
  | zero => simp [byteLen, linesJoin]
  | succ k ih =>
    cases ls with
    | nil => exact absurd hk (by simp)
    | cons l ls =>
      have hk' : k ≤ ls.length := Nat.le_of_succ_le_succ (by simpa using hk)
      have harith : l.length + 1 + byteLen (ls.take k) = l.length + (1 + byteLen (ls.take k)) := by
        omega
      simp only [List.take_succ_cons, byteLen, linesJoin, harith, take_append_len, List.take]
      rw [Nat.add_comm 1 (byteLen (ls.take k)), List.take_succ_cons]
      rw [ih ls hk']

theorem byteLen_take_drop (k : Nat) (ls : List (List Nat)) :
    byteLen (ls.take k) + byteLen (ls.drop k) = byteLen ls := by
  induction k generalizing ls with
  | zero => simp [byteLen]
  | succ k ih =>
    cases ls with
    | nil => simp [byteLen]
    | cons l ls =>
      simp only [List.take_succ_cons, List.drop_succ_cons, byteLen]
      have := ih ls
      omega

theorem scanLoop_all_decode (decode : List Nat → Option Record)
    (ls : List (List Nat)) (rs : List Record) (hf : Bool) (off ln : Nat)
    (h : ls.map decode = rs.map some) :
    scanLoop decode ls hf off ln = .ok (rs, off + byteLen ls, ln + ls.length) := by
  induction ls generalizing rs off ln with
  | nil =>
    have : rs = [] := by
      cases rs with
      | nil => rfl
      | cons r rs => simp at h
    subst this
    simp [scanLoop, byteLen]
  | cons l ls ih =>
    cases rs with
    | nil => simp at h
    | cons r rs =>
      simp only [List.map_cons, List.cons.injEq] at h
      obtain ⟨h1, h2⟩ := h
      have harith1 : off + (l.length + 1) + byteLen ls = off + byteLen (l :: ls) := by
        simp [byteLen]; omega
      have harith2 : ln + 1 + ls.length = ln + (l :: ls).length := by
        simp; omega
      simp only [scanLoop, h1, ih rs (off + l.length + 1) (ln + 1) h2]
      rw [show off + l.length + 1 = off + (l.length + 1) by omega]
      rw [harith1, harith2]

theorem decodeAll_all_decode (decode : List Nat → Option Record)
    (ls : List (List Nat)) (rs : List Record) (n : Nat)
    (h : ls.map decode = rs.map some) :
    decodeAll decode ls n = .ok rs := by
  induction ls generalizing rs n with
  | nil =>
    have : rs = [] := by
      cases rs with
      | nil => rfl
      | cons r rs => simp at h
    subst this
    rfl
  | cons l ls ih =>
    cases rs with
    | nil => simp at h
    | cons r rs =>
      simp only [List.map_cons, List.cons.injEq] at h
      simp [decodeAll, h.1, ih rs (n + 1) h.2]

theorem number_messages_length (start : Nat) (l : List ParsedMessage) :
    (number_messages start l).length = l.length := by
  induction l generalizing start with
  | nil => rfl
  | cons m rest ih => simp [number_messages, ih]

theorem number_messages_map_seq (start : Nat) (l : List ParsedMessage) :
    (number_messages start l).map (fun m => m.sequence) = List.range' start l.length := by
  induction l generalizing start with
  | nil => rfl
  | cons m rest ih => simp [number_messages, List.range'_succ, ih]

theorem number_messages_map_body (start : Nat) (l : List ParsedMessage) :
    (number_messages start l).map (fun m => (m.role, m.content, m.timestamp)) =
      l.map (fun m => (m.role, m.content, m.timestamp)) := by
  induction l generalizing start with
  | nil => rfl
  | cons m rest ih => simp [number_messages, ih]

/-- C8.  `hash_prefix(source, byte_length)` fails with `InvalidRange` exactly
when `byte_length` is negative or exceeds the source's total byte length; in
particular `byte_length = 0` does not fail and returns the fixed hash of the
empty byte sequence. -/
theorem calculate_partial_hash_range (bs : List Nat) (byte_length : Int) :
    (calculate_partial_hash bs byte_length = .error .invalidRange ↔
      byte_length < 0 ∨ (bs.length : Int) < byte_length) ∧
    calculate_partial_hash bs 0 = .ok (hashBytes []) := by
  constructor
  · constructor
    · intro h
      by_contra hc
      push_neg at hc
      simp [calculate_partial_hash, not_lt.mpr hc.1, not_lt.mpr hc.2] at h
    · intro h
      rcases h with h | h
      · simp [calculate_partial_hash, h]
      · have h0 : ¬ byte_length < 0 := by omega
        simp [calculate_partial_hash, h0, h]
  · simp [calculate_partial_hash]

theorem calculate_partial_hash_range_witness :
    calculate_partial_hash [104, 105] (-1) = .error .invalidRange ∧
    calculate_partial_hash [104, 105] 0 = .ok (hashBytes []) :=
  ⟨(calculate_partial_hash_range [104, 105] (-1)).1.mpr (Or.inl (by decide)),
   (calculate_partial_hash_range [104, 105] 0).2⟩

/-- C1, counterexample.  At the concrete input of the repository's test
`test_file_deleted_treated_as_truncate` (missing file, previous offset 0,
previous size 100, a stored hash), the change detector does not return
`Deleted`: it returns `Truncate`. -/
theorem detect_missing_file_not_deleted :
    detect_file_change_type none 0 100 (some (hashBytes [115])) ≠ ChangeType.deleted ∧
    detect_file_change_type none 0 100 (some (hashBytes [115])) = ChangeType.truncate := by
  decide

/-- C1, amended.  For every detection call on a path whose file no longer
exists or is unreadable, `detect_file_change_type` returns the ChangeType
`Truncate` (the deleted case is folded into truncation, as both force a full
re-parse); the result is still one of the five values of the closed
enumeration Unchanged/Append/Truncate/Rewrite/Deleted. -/
theorem detect_missing_file_truncate (previous_offset previous_size : Nat)
    (previous_hash : Option Hash) :
    detect_file_change_type none previous_offset previous_size previous_hash =
      ChangeType.truncate :=
  rfl

theorem detect_missing_file_truncate_witness :
    detect_file_change_type none 5 7 none = ChangeType.truncate :=
  detect_missing_file_truncate 5 7 none

/-- C5.  When the current file size exceeds the previous size: with a
previous hash present, the detector returns `Append` when the hash of the
first `previous_size` bytes of the current file equals the previous hash and
`Rewrite` when it differs; with the previous hash absent it returns
`Append`. -/
theorem detect_growth_append_or_rewrite (bs : List Nat) (previous_offset previous_size : Nat)
    (hgrow : previous_size < bs.length) :
    (∀ h : Hash, hashBytes (bs.take previous_size) = h →
      detect_file_change_type (some bs) previous_offset previous_size (some h) =
        ChangeType.append) ∧
    (∀ h : Hash, hashBytes (bs.take previous_size) ≠ h →
      detect_file_change_type (some bs) previous_offset previous_size (some h) =
        ChangeType.rewrite) ∧
    detect_file_change_type (some bs) previous_offset previous_size none =
      ChangeType.append := by
  have h1 : ¬ bs.length < previous_size := by omega
  have h2 : bs.length ≠ previous_size := by omega
  refine ⟨fun h hh => ?_, fun h hh => ?_, ?_⟩
  · simp [detect_file_change_type, h1, h2, hh]
  · simp [detect_file_change_type, h1, h2, hh]
  · simp [detect_file_change_type, h1, h2]

theorem detect_growth_append_or_rewrite_witness :
    detect_file_change_type (some [1, 2, 3]) 2 2 (some (hashBytes [1, 2])) =
      ChangeType.append ∧
    detect_file_change_type (some [1, 2, 3]) 2 2 (some (hashBytes [9])) =
      ChangeType.rewrite ∧
    detect_file_change_type (some [1, 2, 3]) 2 2 none = ChangeType.append :=
  ⟨(detect_growth_append_or_rewrite [1, 2, 3] 2 2 (by decide)).1 (hashBytes [1, 2]) rfl,
   (detect_growth_append_or_rewrite [1, 2, 3] 2 2 (by decide)).2.1 (hashBytes [9]) (by decide),
   (detect_growth_append_or_rewrite [1, 2, 3] 2 2 (by decide)).2.2⟩

/-- A tracked-path store used to evaluate the truncation fallback on a
concrete input. -/
def truncStore : PathStore :=
  { state := some ⟨2, 1, 5, none⟩, conv := none, content_hash := none, next_id := 0 }

/-- C6.  When the current file size is strictly less than the previous size
the detector returns `Truncate` regardless of the previous hash, and for a
tracked file in that situation the orchestrator falls back to a full
re-parse, never an incremental continuation. -/
theorem detect_shrink_truncate_full_reparse (bs : List Nat) :
    (∀ (previous_offset previous_size : Nat) (previous_hash : Option Hash),
      bs.length < previous_size →
      detect_file_change_type (some bs) previous_offset previous_size previous_hash =
        ChangeType.truncate) ∧
    (∀ (decode : List Nat → Option Record) (st : PathStore) (s : RawLogState)
        (enable_incremental : Bool),
      st.state = some s → bs.length < s.file_size_bytes →
      ingest_log_file decode (some bs) enable_incremental st = full_reparse decode bs st ∧
      (full_reparse decode bs st).1.incremental = false) := by
  have hdet : ∀ (previous_offset previous_size : Nat) (previous_hash : Option Hash),
      bs.length < previous_size →
      detect_file_change_type (some bs) previous_offset previous_size previous_hash =
        ChangeType.truncate := by
    intro off size h hlt
    cases h <;> simp [detect_file_change_type, hlt]
  refine ⟨hdet, fun decode st s inc hst hlt => ⟨?_, ?_⟩⟩
  · simp [ingest_log_file, hst, hdet s.last_processed_offset s.file_size_bytes s.partial_hash hlt]
  · unfold full_reparse
    cases parse decode (some bs) with
    | error e => rfl
    | ok parsed => cases hc : st.conv <;> simp [hc]

theorem detect_shrink_truncate_full_reparse_witness :
    detect_file_change_type (some [1]) 2 5 none = ChangeType.truncate ∧
    (ingest_log_file decode0 (some [1]) true truncStore = full_reparse decode0 [1] truncStore ∧
     (full_reparse decode0 [1] truncStore).1.incremental = false) :=
  ⟨(detect_shrink_truncate_full_reparse [1]).1 2 5 none (by decide),
   (detect_shrink_truncate_full_reparse [1]).2 decode0 truncStore ⟨2, 1, 5, none⟩ true rfl
     (by decide)⟩

/-- C2, counterexample.  A read window that ends in a partial trailing
record does not in general return `new_messages` empty with unchanged
offset/line: with one complete message record before the partial fragment,
the complete record is consumed and the counters advance to the byte
position before the fragment.  (Here byte 1 is a complete message line and
byte 9 the partial fragment.) -/
theorem incremental_window_before_partial_consumed :
    ∃ r, parse_incremental decode0 (some [1, 10, 9]) 0 0 = Except.ok r ∧
      r.new_messages ≠ [] ∧ r.last_processed_offset ≠ 0 := by
  refine ⟨⟨[⟨"user", "hi", 1⟩], 2, 1, 3, hashBytes [1, 10], some 1⟩, ?_, by decide, by decide⟩
  rfl

/-- C2, amended.  For every incremental parse whose read window consists
solely of a partial trailing record that fails to decode (no newline in the
unread tail), `parse_incremental` raises no error, returns `new_messages`
empty, and returns `last_processed_offset`/`last_processed_line` equal to
the values passed in — the partial line is not consumed; and if that record
is completed by a later write into a decodable message line, a subsequent
incremental call returns the deferred message and advances exactly past
it. -/
theorem incremental_partial_line_deferred (decode : List Nat → Option Record)
    (bs : List Nat) (last_offset last_line : Nat)
    (hoff : last_offset ≤ bs.length) (hfrag : 10 ∉ bs.drop last_offset) :
    (∃ r, parse_incremental decode (some bs) last_offset last_line = .ok r ∧
       r.new_messages = [] ∧ r.last_processed_offset = last_offset ∧
       r.last_processed_line = last_line) ∧
    (∀ (c : List Nat) (m : ParsedMessage), 10 ∉ c →
       decode (bs.drop last_offset ++ c) = some (Record.message m) →
       ∃ r, parse_incremental decode (some (bs ++ (c ++ [10]))) last_offset last_line = .ok r ∧
         r.new_messages = [m] ∧
         r.last_processed_offset = bs.length + c.length + 1 ∧
         r.last_processed_line = last_line + 1) := by
  constructor
  · have hsplit := splitTerminated_no_newline _ hfrag
    have hres : parse_incremental decode (some bs) last_offset last_line =
        .ok ⟨[], last_offset, last_line, bs.length, hashBytes (bs.take last_offset), none⟩ := by
      simp [parse_incremental, hsplit, scanLoop, msgsOf]
    exact ⟨_, hres, rfl, rfl, rfl⟩
  · intro c m hc hdec
    have hnl : (10 : Nat) ∉ (bs.drop last_offset ++ c) := by
      intro hmem
      rcases List.mem_append.mp hmem with h | h
      · exact hfrag h
      · exact hc h
    have hdrop : (bs ++ (c ++ [10])).drop last_offset =
        (bs.drop last_offset ++ c) ++ [10] := by
      rw [List.drop_append_of_le_length hoff, List.append_assoc]
    have hsplit : splitTerminated (bs.drop last_offset ++ (c ++ [10])) =
        ([bs.drop last_offset ++ c], []) := by
      have h := splitTerminated_line (bs.drop last_offset ++ c) [] hnl
      rw [show (bs.drop last_offset ++ c) ++ 10 :: [] =
            bs.drop last_offset ++ (c ++ [10]) by simp] at h
      simpa [splitTerminated] using h
    have hscan := scanLoop_all_decode decode [bs.drop last_offset ++ c] [Record.message m]
        false last_offset last_line (by simp [hdec])
    have hres : parse_incremental decode (some (bs ++ (c ++ [10]))) last_offset last_line =
        .ok ⟨[m], last_offset + byteLen [bs.drop last_offset ++ c], last_line + 1,
             (bs ++ (c ++ [10])).length,
             hashBytes ((bs ++ (c ++ [10])).take
               (last_offset + byteLen [bs.drop last_offset ++ c])),
             some m.timestamp⟩ := by
      simp [parse_incremental, hdrop, hsplit, hscan, msgsOf, Record.message?]
    refine ⟨_, hres, rfl, ?_, rfl⟩
    simp only [byteLen, List.length_append, List.length_drop]
    omega

theorem incremental_partial_line_deferred_witness :
    (∃ r, parse_incremental decode0 (some [0, 10, 123]) 2 1 = .ok r ∧
       r.new_messages = [] ∧ r.last_processed_offset = 2 ∧ r.last_processed_line = 1) ∧
    (∃ r, parse_incremental decode0 (some ([0, 10, 123] ++ ([7] ++ [10]))) 2 1 = .ok r ∧
       r.new_messages = [⟨"assistant", "deferred", 5⟩] ∧
       r.last_processed_offset = 5 ∧ r.last_processed_line = 2) :=
  ⟨(incremental_partial_line_deferred decode0 [0, 10, 123] 2 1 (by decide) (by decide)).1,
   (incremental_partial_line_deferred decode0 [0, 10, 123] 2 1 (by decide) (by decide)).2
     [7] ⟨"assistant", "deferred", 5⟩ (by decide) (by decide)⟩

theorem msgsOf_append (a b : List Record) : msgsOf (a ++ b) = msgsOf a ++ msgsOf b := by
  simp [msgsOf]

theorem map_decode_take (decode : List Nat → Option Record)
    (ls : List (List Nat)) (rs : List Record) (k : Nat)
    (h : ls.map decode = rs.map some) :
    (ls.take k).map decode = (rs.take k).map some := by
  rw [List.map_take, List.map_take, h]

theorem map_decode_drop (decode : List Nat → Option Record)
    (ls : List (List Nat)) (rs : List Record) (k : Nat)
    (h : ls.map decode = rs.map some) :
    (ls.drop k).map decode = (rs.drop k).map some := by
  rw [List.map_drop, List.map_drop, h]

/-- A full parse of a file consisting of complete, decodable,
newline-terminated records yields exactly the messages of those records in
order. -/
theorem parse_join (decode : List Nat → Option Record)
    (ls : List (List Nat)) (rs : List Record)
    (hdec : ls.map decode = rs.map some) (hnl : ∀ l ∈ ls, 10 ∉ l) :
    parse decode (some (linesJoin ls)) = .ok ⟨msgsOf rs⟩ := by
  have hsplit : splitTerminated (linesJoin ls) = (ls, []) := by
    simpa using splitTerminated_join ls [] hnl (by simp)
  have hall := decodeAll_all_decode decode ls rs 0 hdec
  simp [parse, hsplit, hall]

/-- An incremental parse of a file of complete, decodable,
newline-terminated records, resumed from the record boundary after the first
`k` records, consumes exactly the remaining records: it returns their
messages and advances the offset/line counters to the end of the file. -/
theorem parse_incremental_join (decode : List Nat → Option Record)
    (lines : List (List Nat)) (recs : List Record) (k : Nat)
    (hdec : lines.map decode = recs.map some)
    (hnl : ∀ l ∈ lines, 10 ∉ l) (hk : k ≤ lines.length) :
    ∃ r, parse_incremental decode (some (linesJoin lines)) (byteLen (lines.take k)) k =
        .ok r ∧
      r.new_messages = msgsOf (recs.drop k) ∧
      r.last_processed_offset = (linesJoin lines).length ∧
      r.last_processed_line = lines.length := by
  have hdrop := linesJoin_drop k lines hk
  have hnl' : ∀ l ∈ lines.drop k, 10 ∉ l := fun l hl => hnl l (List.mem_of_mem_drop hl)
  have hsplit : splitTerminated (linesJoin (lines.drop k)) = (lines.drop k, []) := by
    simpa using splitTerminated_join (lines.drop k) [] hnl' (by simp)
  have hscan := scanLoop_all_decode decode (lines.drop k) (recs.drop k) false
      (byteLen (lines.take k)) k (map_decode_drop decode lines recs k hdec)
  have hres : parse_incremental decode (some (linesJoin lines)) (byteLen (lines.take k)) k =
      .ok ⟨msgsOf (recs.drop k), byteLen (lines.take k) + byteLen (lines.drop k),
           k + (lines.drop k).length, (linesJoin lines).length,
           hashBytes ((linesJoin lines).take
             (byteLen (lines.take k) + byteLen (lines.drop k))),
           ((msgsOf (recs.drop k)).map (fun m => m.timestamp)).getLast?⟩ := by
    simp [parse_incremental, hdrop, hsplit, hscan, msgsOf]
  refine ⟨_, hres, rfl, ?_, ?_⟩
  · rw [byteLen_take_drop k lines, linesJoin_length]
  · simp only [List.length_drop]
    omega

/-- C3.  For every file of complete newline-terminated records and every
previously recorded offset/line at a record boundary, `parse_incremental`
returns exactly the message-mapping records beyond that offset as
`new_messages` (session-metadata/control records are counted in line
numbering but contribute no message), and advances
`last_processed_offset`/`last_processed_line` exactly to the byte/line
boundary of the last fully-consumed, fully-decoded record — here the end of
the file. -/
theorem incremental_complete_records_delta (decode : List Nat → Option Record)
    (lines : List (List Nat)) (recs : List Record) (k : Nat)
    (hdec : lines.map decode = recs.map some)
    (hnl : ∀ l ∈ lines, 10 ∉ l) (hk : k ≤ lines.length) :
    ∃ r, parse_incremental decode (some (linesJoin lines)) (byteLen (lines.take k)) k =
        .ok r ∧
      r.new_messages = msgsOf (recs.drop k) ∧
      r.last_processed_offset = (linesJoin lines).length ∧
      r.last_processed_line = lines.length :=
  parse_incremental_join decode lines recs k hdec hnl hk

theorem incremental_complete_records_delta_witness :
    ∃ r, parse_incremental decode0 (some [0, 10, 1, 10, 2, 10, 3, 10]) 6 3 = .ok r ∧
      r.new_messages = [⟨"assistant", "more", 3⟩] ∧
      r.last_processed_offset = 8 ∧
      r.last_processed_line = 4 :=
  incremental_complete_records_delta decode0 [[0], [1], [2], [3]]
    [.sessionMeta, .message ⟨"user", "hi", 1⟩, .message ⟨"assistant", "hello", 2⟩,
     .message ⟨"assistant", "more", 3⟩] 3 (by decide) (by decide) (by decide)

/-- C9.  For every parseable log file and every split point at a record
boundary, fully parsing the first N bytes and then incrementally parsing the
remainder of the whole file from the resulting offset yields the same
ordered message sequence as a single full parse of the whole file. -/
theorem full_parse_split_roundtrip (decode : List Nat → Option Record)
    (lines : List (List Nat)) (recs : List Record) (k : Nat)
    (hdec : lines.map decode = recs.map some)
    (hnl : ∀ l ∈ lines, 10 ∉ l) (hk : k ≤ lines.length) :
    ∃ head delta whole,
      parse decode (some ((linesJoin lines).take (byteLen (lines.take k)))) = .ok head ∧
      parse_incremental decode (some (linesJoin lines)) (byteLen (lines.take k)) k =
        .ok delta ∧
      parse decode (some (linesJoin lines)) = .ok whole ∧
      head.messages ++ delta.new_messages = whole.messages := by
  have htake := linesJoin_take k lines hk
  have hhead : parse decode (some ((linesJoin lines).take (byteLen (lines.take k)))) =
      .ok ⟨msgsOf (recs.take k)⟩ := by
    rw [htake]
    exact parse_join decode (lines.take k) (recs.take k)
      (map_decode_take decode lines recs k hdec)
      (fun l hl => hnl l (List.mem_of_mem_take hl))
  obtain ⟨delta, hdelta, hmsgs, _, _⟩ :=
    parse_incremental_join decode lines recs k hdec hnl hk
  have hwhole : parse decode (some (linesJoin lines)) = .ok ⟨msgsOf recs⟩ :=
    parse_join decode lines recs hdec hnl
  refine ⟨⟨msgsOf (recs.take k)⟩, delta, ⟨msgsOf recs⟩, hhead, hdelta, hwhole, ?_⟩
  rw [hmsgs]
  calc msgsOf (recs.take k) ++ msgsOf (recs.drop k)
      = msgsOf (recs.take k ++ recs.drop k) := (msgsOf_append _ _).symm
    _ = msgsOf recs := by rw [List.take_append_drop]

theorem full_parse_split_roundtrip_witness :
    ∃ head delta whole,
      parse decode0 (some ([0, 10, 1, 10, 2, 10, 3, 10].take 4)) = .ok head ∧
      parse_incremental decode0 (some [0, 10, 1, 10, 2, 10, 3, 10]) 4 2 = .ok delta ∧
      parse decode0 (some [0, 10, 1, 10, 2, 10, 3, 10]) = .ok whole ∧
      head.messages ++ delta.new_messages = whole.messages :=
  full_parse_split_roundtrip decode0 [[0], [1], [2], [3]]
    [.sessionMeta, .message ⟨"user", "hi", 1⟩, .message ⟨"assistant", "hello", 2⟩,
     .message ⟨"assistant", "more", 3⟩] 2 (by decide) (by decide) (by decide)

/-- C4.  Ingesting a file and then calling ingest again with no intervening
change to the file yields `Skipped` on the second call, and the second call
persists nothing: the store is returned unchanged. -/
theorem ingest_unchanged_skipped (decode : List Nat → Option Record) (bs : List Nat)
    (enable_incremental : Bool) (out1 : IngestionOutcome) (st1 : PathStore)
    (h1 : ingest_log_file decode (some bs) enable_incremental emptyStore = (out1, st1))
    (hs : out1.status = .success) :
    ingest_log_file decode (some bs) enable_incremental st1 =
      ({ status := .skipped, incremental := false, conversation := st1.conv }, st1) := by
  have hfirst : ingest_log_file decode (some bs) enable_incremental emptyStore =
      full_reparse decode bs emptyStore := rfl
  rw [hfirst] at h1
  unfold full_reparse at h1
  cases hp : parse decode (some bs) with
  | error e =>
    rw [hp] at h1
    cases h1
    simp at hs
  | ok parsed =>
    rw [hp] at h1
    simp only [emptyStore] at h1
    cases h1
    have hdet : detect_file_change_type (some bs) bs.length bs.length
        (some (hashBytes bs)) = ChangeType.unchanged := by
      simp [detect_file_change_type, List.take_length]
    simp [ingest_log_file, full_state, hdet]

theorem ingest_unchanged_skipped_witness :
    ingest_log_file decode0 (some [1, 10]) true
        (ingest_log_file decode0 (some [1, 10]) true emptyStore).2 =
      ({ status := .skipped, incremental := false,
         conversation := (ingest_log_file decode0 (some [1, 10]) true emptyStore).2.conv },
       (ingest_log_file decode0 (some [1, 10]) true emptyStore).2) :=
  ingest_unchanged_skipped decode0 [1, 10] true
    (ingest_log_file decode0 (some [1, 10]) true emptyStore).1
    (ingest_log_file decode0 (some [1, 10]) true emptyStore).2 rfl (by decide)

/-- C7.  For a tracked file classified `Append` with incremental parsing
supported and enabled, ingest appends the new messages to the existing
conversation: starting from an untracked store, a first ingest succeeds and
creates a conversation; after the file grows by complete appended records, a
second ingest returns `Success` with `incremental = true` and a conversation
with the same identity, whose denormalized message count (and stored message
rows) grew by exactly the number of new messages. -/
theorem ingest_append_incremental_success (decode : List Nat → Option Record)
    (lines1 : List (List Nat)) (recs1 : List Record)
    (lines2 : List (List Nat)) (recs2 : List Record)
    (hdec1 : lines1.map decode = recs1.map some)
    (hdec2 : lines2.map decode = recs2.map some)
    (hnl1 : ∀ l ∈ lines1, 10 ∉ l) (hnl2 : ∀ l ∈ lines2, 10 ∉ l)
    (hne : lines2 ≠ []) :
    ∃ out1 st1 out2 st2 c1 c2,
      ingest_log_file decode (some (linesJoin lines1)) true emptyStore = (out1, st1) ∧
      ingest_log_file decode (some (linesJoin lines1 ++ linesJoin lines2)) true st1 =
        (out2, st2) ∧
      out1.status = .success ∧ out1.conversation = some c1 ∧
      out2.status = .success ∧ out2.incremental = true ∧ out2.conversation = some c2 ∧
      c2.id = c1.id ∧
      c2.message_count = c1.message_count + (msgsOf recs2).length ∧
      c2.messages.length = c1.messages.length + (msgsOf recs2).length := by
  have hparse1 := parse_join decode lines1 recs1 hdec1 hnl1
  have hsplit1 : splitTerminated (linesJoin lines1) = (lines1, []) := by
    simpa using splitTerminated_join lines1 [] hnl1 (by simp)
  have hsplit2 : splitTerminated (linesJoin lines2) = (lines2, []) := by
    simpa using splitTerminated_join lines2 [] hnl2 (by simp)
  have hlen2 : 0 < (linesJoin lines2).length := by
    cases lines2 with
    | nil => exact absurd rfl hne
    | cons l ls => simp [linesJoin]
  -- The first ingestion: untracked, so a full parse creating conversation 0.
  have h1 : ingest_log_file decode (some (linesJoin lines1)) true emptyStore =
      ({ status := .success, incremental := false,
         conversation := some (ingest_conversation 0 ⟨msgsOf recs1⟩) },
       { state := some (full_state (linesJoin lines1)),
         conv := some (ingest_conversation 0 ⟨msgsOf recs1⟩),
         content_hash := some (hashBytes (linesJoin lines1)), next_id := 1 }) := by
    simp [ingest_log_file, emptyStore, full_reparse, hparse1]
  -- The second ingestion: the grown file is classified Append.
  have htake : (linesJoin lines1 ++ linesJoin lines2).take (linesJoin lines1).length =
      linesJoin lines1 := by
    simpa using take_append_len (linesJoin lines1) (linesJoin lines2) 0
  have hdet : detect_file_change_type (some (linesJoin lines1 ++ linesJoin lines2))
      (linesJoin lines1).length (linesJoin lines1).length
      (some (hashBytes (linesJoin lines1))) = ChangeType.append := by
    have hA : ¬ (linesJoin lines1 ++ linesJoin lines2).length < (linesJoin lines1).length := by
      simp [List.length_append]
    have hB : (linesJoin lines1 ++ linesJoin lines2).length ≠ (linesJoin lines1).length := by
      have := List.length_append (linesJoin lines1) (linesJoin lines2)
      omega
    simp [detect_file_change_type, hA, hB, htake]
    exact List.length_pos.mp hlen2
  have hdrop2 : (linesJoin lines1 ++ linesJoin lines2).drop (linesJoin lines1).length =
      linesJoin lines2 := by
    simpa using drop_append_len (linesJoin lines1) (linesJoin lines2) 0
  have hscan2 := scanLoop_all_decode decode lines2 recs2 false
      (linesJoin lines1).length lines1.length hdec2
  have hinc : parse_incremental decode (some (linesJoin lines1 ++ linesJoin lines2))
      (linesJoin lines1).length lines1.length =
      .ok ⟨msgsOf recs2, (linesJoin lines1).length + byteLen lines2,
           lines1.length + lines2.length,
           (linesJoin lines1 ++ linesJoin lines2).length,
           hashBytes ((linesJoin lines1 ++ linesJoin lines2).take
             ((linesJoin lines1).length + byteLen lines2)),
           ((msgsOf recs2).map (fun m => m.timestamp)).getLast?⟩ := by
    simp [parse_incremental, hdrop2, hsplit2, hscan2, msgsOf]
  have h2 : ingest_log_file decode (some (linesJoin lines1 ++ linesJoin lines2)) true
      { state := some (full_state (linesJoin lines1)),
        conv := some (ingest_conversation 0 ⟨msgsOf recs1⟩),
        content_hash := some (hashBytes (linesJoin lines1)), next_id := 1 } =
      ({ status := .success, incremental := true,
         conversation := some (append_messages (ingest_conversation 0 ⟨msgsOf recs1⟩)
           (msgsOf recs2)) },
       { state := some ⟨(linesJoin lines1).length + byteLen lines2,
                        lines1.length + lines2.length,
                        (linesJoin lines1 ++ linesJoin lines2).length,
                        some (hashBytes ((linesJoin lines1 ++ linesJoin lines2).take
                          ((linesJoin lines1).length + byteLen lines2)))⟩,
         conv := some (append_messages (ingest_conversation 0 ⟨msgsOf recs1⟩)
           (msgsOf recs2)),
         content_hash := some (hashBytes (linesJoin lines1 ++ linesJoin lines2)),
         next_id := 1 }) := by
    simp [ingest_log_file, full_state, hsplit1, hdet, hinc]
  refine ⟨_, _, _, _, ingest_conversation 0 ⟨msgsOf recs1⟩,
    append_messages (ingest_conversation 0 ⟨msgsOf recs1⟩) (msgsOf recs2),
    h1, h2, rfl, rfl, rfl, rfl, rfl, rfl, rfl, ?_⟩
  simp [append_messages, ingest_conversation, number_messages_length]

theorem ingest_append_incremental_success_witness :
    ∃ out1 st1 out2 st2 c1 c2,
      ingest_log_file decode0 (some (linesJoin [[0], [1], [2]])) true emptyStore =
        (out1, st1) ∧
      ingest_log_file decode0 (some (linesJoin [[0], [1], [2]] ++ linesJoin [[3]])) true st1 =
        (out2, st2) ∧
      out1.status = .success ∧ out1.conversation = some c1 ∧
      out2.status = .success ∧ out2.incremental = true ∧ out2.conversation = some c2 ∧
      c2.id = c1.id ∧
      c2.message_count = c1.message_count + 1 ∧
      c2.messages.length = c1.messages.length + 1 :=
  ingest_append_incremental_success decode0 [[0], [1], [2]]
    [.sessionMeta, .message ⟨"user", "hi", 1⟩, .message ⟨"assistant", "hello", 2⟩]
    [[3]] [.message ⟨"assistant", "more", 3⟩]
    (by decide) (by decide) (by decide) (by decide) (by decide)

/-- C10.  For every ParsedConversation with n messages, `ingest_conversation`
stores the messages with consecutive sequence numbers 0 through n-1 in the
order they appear in the input, and creates exactly one epoch, with sequence
number 0, covering the conversation. -/
theorem ingest_conversation_sequences_epoch (cid : Nat) (parsed : ParsedConversation) :
    ((ingest_conversation cid parsed).messages.map fun m => m.sequence) =
      List.range parsed.messages.length ∧
    ((ingest_conversation cid parsed).messages.map fun m => (m.role, m.content, m.timestamp)) =
      parsed.messages.map (fun m => (m.role, m.content, m.timestamp)) ∧
    (ingest_conversation cid parsed).epochs = [⟨0⟩] := by
  refine ⟨?_, number_messages_map_body 0 parsed.messages, rfl⟩
  rw [show (ingest_conversation cid parsed).messages = number_messages 0 parsed.messages
    from rfl, number_messages_map_seq, List.range_eq_range']

theorem ingest_conversation_sequences_epoch_witness :
    ((ingest_conversation 3 ⟨[⟨"user", "hi", 1⟩, ⟨"assistant", "hello", 2⟩]⟩).messages.map
        fun m => m.sequence) = List.range 2 ∧
    ((ingest_conversation 3 ⟨[⟨"user", "hi", 1⟩, ⟨"assistant", "hello", 2⟩]⟩).messages.map
        fun m => (m.role, m.content, m.timestamp)) =
      [⟨"user", "hi", 1⟩, ⟨"assistant", "hello", 2⟩].map
        (fun m : ParsedMessage => (m.role, m.content, m.timestamp)) ∧
    (ingest_conversation 3 ⟨[⟨"user", "hi", 1⟩, ⟨"assistant", "hello", 2⟩]⟩).epochs = [⟨0⟩] :=
  ingest_conversation_sequences_epoch 3 ⟨[⟨"user", "hi", 1⟩, ⟨"assistant", "hello", 2⟩]⟩
